import Mathlib

/-!
Verification of the strongbox-catalogue-builder-go repository.

This file gives a shallow embedding, in Lean 4, of the parts of the Go
source that the specification's claims are about:

* `src/types`        — the data model (`Addon`, `AddonData`, `Catalogue`, ...);
* `src/catalogue`    — the catalogue builder (`MergeAddonData`,
  `BuildCatalogue`, `ShortenCatalogue`, `FilterCatalogue` and their helpers);
* `src/retry`        — the retry policy (`shouldRetry`, `getRetryDelay`,
  `WithRetry`);
* `src/cache`        — the cache key and TTL-class selection
  (`makeCacheKey`, the TTL choice inside `cacheExpired`);
* `src/cli/commands` — the concurrency skeletons of `processURL`
  (dedup under the shared mutex) and of `scrapeWowInterface`
  (worker loop, in-flight counter and the completion monitor), modelled as
  explicit transition systems over interleavings.

Conventions used throughout:

* Go `time.Time` values are modelled as `Nat`, with `0` playing the role of
  the zero time (`IsZero`).  The only operations the modelled code performs
  on times are the zero test and `After` (strict comparison), which these
  support.
* Go `time.Duration` values are modelled as `Nat` nanoseconds.
* A Go pointer field (`*int`, `*time.Time`) is an `Option`; a Go string
  field uses `""` for its zero value, exactly as the source does.
* A Go `map[K]bool` used as a set is modelled as a `List K` of its keys;
  insertion (`m[k] = true`) is insert-if-absent.  Every consumer in the
  modelled code either tests membership or sorts the keys, so the list
  order never leaks into results.
* `sort.Slice(l, less)` is modelled by an insertion sort parameterised by a
  boolean `le`.  Go's `sort.Slice` is unspecified on ties; the model is a
  stable sort, which agrees with Go on every input whose keys are distinct,
  and agrees with Go's actual behaviour (no swap) on the two-element
  tied inputs used in concrete statements below.
-/

namespace StrongboxCatalogue

/-! ## Generic list machinery: insert-if-absent sets and sorting -/

/-- Insert-if-absent, modelling `m[k] = true` on a Go `map[K]bool` set. -/
def setInsert {α : Type} [DecidableEq α] (x : α) (s : List α) : List α :=
  if x ∈ s then s else s ++ [x]

/-- Fold `setInsert` over a list of new keys, modelling a Go
`for k := range src { dst[k] = true }` loop. -/
def setUnionList {α : Type} [DecidableEq α] (acc : List α) (xs : List α) : List α :=
  xs.foldl (fun s t => setInsert t s) acc

/-- One step of insertion sort wrt a boolean `le`. -/
def insertSorted {α : Type} (le : α → α → Bool) (x : α) : List α → List α
  | [] => [x]
  | y :: ys => if le x y then x :: y :: ys else y :: insertSorted le x ys

/-- Insertion sort wrt a boolean `le`: the model of `sort.Slice`. -/
def sortBy {α : Type} (le : α → α → Bool) : List α → List α
  | [] => []
  | x :: xs => insertSorted le x (sortBy le xs)

/-- Comparison by a natural-number key, as a boolean relation. -/
def natKeyLe {α : Type} (k : α → Nat) : α → α → Bool :=
  fun a b => decide (k a ≤ k b)

/-- Lexicographic strict comparison of character lists by code point.
Go compares strings byte-wise; on UTF-8 encodings the byte-wise order
coincides with the code-point order modelled here. -/
def charListLt : List Char → List Char → Bool
  | _, [] => false
  | [], _ :: _ => true
  | a :: as, b :: bs =>
    if a.toNat < b.toNat then true
    else if a.toNat = b.toNat then charListLt as bs
    else false

/-- The strict string order used by Go's `<` on strings. -/
def goStringLt (a b : String) : Bool := charListLt a.data b.data

/-- The non-strict order induced by `goStringLt`: in terms of which
`sort.Strings` and `sort.Slice` output order is characterised. -/
def goStringLe (a b : String) : Bool := !goStringLt b a

/-! ## Data model (`src/types/types.go`) -/

/-- `types.GameTrack`: the WoW game versions, a closed enumeration. -/
inductive GameTrack : Type where
  | retail
  | classic
  | classicTbc
  | classicWotlk
  | classicCata
  | classicMists
deriving DecidableEq, Repr

/-- `types.AllGameTracks`, in declaration order. -/
def AllGameTracks : List GameTrack :=
  [GameTrack.retail, GameTrack.classic, GameTrack.classicTbc,
   GameTrack.classicWotlk, GameTrack.classicCata, GameTrack.classicMists]

/-- The index of a track in `types.AllGameTracks`; the builder constructs
this map (`trackOrder`) in `gameTrackSetToSortedSlice`. -/
def trackOrder : GameTrack → Nat
  | GameTrack.retail => 0
  | GameTrack.classic => 1
  | GameTrack.classicTbc => 2
  | GameTrack.classicWotlk => 3
  | GameTrack.classicCata => 4
  | GameTrack.classicMists => 5

/-- `types.Source`: the known addon sources. -/
inductive Source : Type where
  | wowinterface
  | github
deriving DecidableEq, Repr

/-- The string value underlying a `types.Source` constant. -/
def sourceStr : Source → String
  | Source.wowinterface => "wowinterface"
  | Source.github => "github"

/-- `types.Addon`: one canonical catalogue record.  Times are `Nat`
(`0` = Go zero time) and durations of the data model do not occur here. -/
structure Addon : Type where
  createdDate : Option Nat
  description : String
  downloadCount : Option Int
  gameTrackList : List GameTrack
  label : String
  name : String
  source : Source
  sourceID : String
  tagList : List String
  url : String
  updatedDate : Nat
deriving DecidableEq, Repr

/-- `types.AddonData`: one partial observation of an addon.  The
`LatestReleaseSet` and `WoWI` fields of the Go struct are never read by the
catalogue builder (the code under verification) and are omitted. -/
structure AddonData : Type where
  source : Source
  sourceID : String
  filename : String
  name : String := ""
  label : String := ""
  description : String := ""
  updatedDate : Option Nat := none
  createdDate : Option Nat := none
  downloadCount : Option Int := none
  gameTrackSet : List GameTrack := []
  tagSet : List String := []
  url : String := ""
deriving DecidableEq, Repr

/-- The anonymous `Spec struct { Version int }` of `types.Catalogue`. -/
structure CatalogueSpec : Type where
  version : Int
deriving DecidableEq, Repr

/-- `types.Catalogue`: the output catalogue shape. -/
structure Catalogue : Type where
  spec : CatalogueSpec
  datestamp : String
  total : Nat
  addonSummaryList : List Addon
deriving DecidableEq, Repr

/-! ## Catalogue builder (`src/catalogue/builder.go`) -/

/-- `Builder.getFilePriority`: priority for merge order
(lower = merged earlier = lower priority). -/
def getFilePriority (filename : String) : Nat :=
  if filename = "listing.json" then 0
  else if filename = "web-detail.json" then 1
  else if filename = "api-detail.json" then 2
  else if filename = "api-filelist.json" then 2
  else 0

/-- The merge accumulator of `MergeAddonData`: the record built so far plus
the running `gameTrackSet` and `tagSet` key sets. -/
structure MergeAcc : Type where
  merged : Addon
  gameTrackSet : List GameTrack
  tagSet : List String
deriving DecidableEq, Repr

/-- The `merged := &types.Addon{Source: ..., SourceID: ...}` initialiser:
all other fields take their Go zero values. -/
def initMerged (first : AddonData) : Addon :=
  { createdDate := none
    description := ""
    downloadCount := none
    gameTrackList := []
    label := ""
    name := ""
    source := first.source
    sourceID := first.sourceID
    tagList := []
    url := ""
    updatedDate := 0 }

/-- The scalar-field part of one iteration of the merge loop in
`MergeAddonData`: non-empty strings overwrite, non-zero times overwrite,
positive download counts overwrite; everything else leaves the prior
value.  The Go assignments are independent, so they are modelled as one
record update. -/
def mergeScalars (m : Addon) (data : AddonData) : Addon :=
  { m with
    name := if data.name ≠ "" then data.name else m.name
    label := if data.label ≠ "" then data.label else m.label
    description := if data.description ≠ "" then data.description else m.description
    url := if data.url ≠ "" then data.url else m.url
    updatedDate :=
      match data.updatedDate with
      | some t => if t ≠ 0 then t else m.updatedDate
      | none => m.updatedDate
    createdDate :=
      match data.createdDate with
      | some t => if t ≠ 0 then some t else m.createdDate
      | none => m.createdDate
    downloadCount :=
      match data.downloadCount with
      | some c => if c > 0 then some c else m.downloadCount
      | none => m.downloadCount }

/-- One full iteration of the merge loop: scalar merge plus accumulation of
the game-track and tag key sets. -/
def mergeStep (acc : MergeAcc) (data : AddonData) : MergeAcc :=
  { merged := mergeScalars acc.merged data
    gameTrackSet := setUnionList acc.gameTrackSet data.gameTrackSet
    tagSet := setUnionList acc.tagSet data.tagSet }

/-- `Builder.gameTrackSetToSortedSlice`: the keys of the track set, sorted
by their index in `AllGameTracks`. -/
def gameTrackSetToSortedSlice (trackSet : List GameTrack) : List GameTrack :=
  sortBy (natKeyLe trackOrder) trackSet

/-- `Builder.stringSetToSortedSlice`: the keys of a string set, sorted
lexicographically (`sort.Strings`). -/
def stringSetToSortedSlice (stringSet : List String) : List String :=
  sortBy goStringLe stringSet

/-- The ordering key used by `MergeAddonData` when it sorts the input:
`getFilePriority` of the filename. -/
def dataPriority (d : AddonData) : Nat := getFilePriority d.filename

/-- The merge loop of `MergeAddonData` over the sorted record list
(`first` is `addonDataList[0]` after sorting, which seeds `Source` and
`SourceID`). -/
def mergeFold (first : AddonData) (rest : List AddonData) : MergeAcc :=
  (first :: rest).foldl mergeStep
    { merged := initMerged first, gameTrackSet := [], tagSet := [] }

/-- The tail of `MergeAddonData` after the loop: convert the accumulated
sets to sorted slices, drop the record if it carries no update date, and
default the track list to retail if empty. -/
def finalizeMerge (acc : MergeAcc) : Option Addon :=
  let merged : Addon :=
    { acc.merged with
      gameTrackList := gameTrackSetToSortedSlice acc.gameTrackSet
      tagList := stringSetToSortedSlice acc.tagSet }
  if merged.updatedDate = 0 then none
  else if merged.gameTrackList = [] then
    some { merged with gameTrackList := [GameTrack.retail] }
  else some merged

/-- `Builder.MergeAddonData`: sort the partial records by file priority,
fold them into one record, then finalize.  The `(nil, nil)` Go return for
an empty input or a missing update date is `none`. -/
def mergeAddonData (addonDataList : List AddonData) : Option Addon :=
  match sortBy (natKeyLe dataPriority) addonDataList with
  | [] => none
  | first :: rest => finalizeMerge (mergeFold first rest)

/-- `Builder.BuildCatalogue`: optional source filter, sort by `SourceID`,
stamp with spec version 2 and the current date.  The impure
`currentDateStamp()` is passed in as `today`; `sort.Slice` sorts the
filtered slice in place, so `Total` is the length of the sorted list. -/
def buildCatalogue (today : String) (addons : List Addon) (sources : List Source) :
    Catalogue :=
  let filteredAddons :=
    if sources ≠ [] then addons.filter (fun a => decide (a.source ∈ sources))
    else addons
  let sorted := sortBy (fun a b : Addon => goStringLe a.sourceID b.sourceID) filteredAddons
  { spec := { version := 2 }
    datestamp := today
    total := sorted.length
    addonSummaryList := sorted }

/-- `Builder.ShortenCatalogue`: keep records whose `UpdatedDate` is
strictly after the cutoff (`time.Time.After`). -/
def shortenCatalogue (catalogue : Catalogue) (cutoffDate : Nat) : Catalogue :=
  let maintainedAddons :=
    catalogue.addonSummaryList.filter (fun a => decide (cutoffDate < a.updatedDate))
  { spec := catalogue.spec
    datestamp := catalogue.datestamp
    total := maintainedAddons.length
    addonSummaryList := maintainedAddons }

/-- `Builder.FilterCatalogue`: keep records satisfying the predicate. -/
def filterCatalogue (catalogue : Catalogue) (predicate : Addon → Bool) : Catalogue :=
  let filteredAddons := catalogue.addonSummaryList.filter predicate
  { spec := catalogue.spec
    datestamp := catalogue.datestamp
    total := filteredAddons.length
    addonSummaryList := filteredAddons }

/-! ## Properties of the sorting and set machinery -/

theorem insertSorted_perm {α : Type} (le : α → α → Bool) (x : α) (l : List α) :
    List.Perm (insertSorted le x l) (x :: l) := by
  induction l with
  | nil => exact List.Perm.refl [x]
  | cons y ys ih =>
    cases h : le x y with
    | true => simp [insertSorted, h]
    | false =>
      simp only [insertSorted, h, Bool.false_eq_true, if_false]
      exact (ih.cons y).trans (List.Perm.swap x y ys)

theorem sortBy_perm {α : Type} (le : α → α → Bool) (l : List α) :
    List.Perm (sortBy le l) l := by
  induction l with
  | nil => exact List.Perm.refl []
  | cons x xs ih =>
    exact (insertSorted_perm le x (sortBy le xs)).trans (ih.cons x)

theorem mem_insertSorted {α : Type} (le : α → α → Bool) (x a : α) (l : List α) :
    a ∈ insertSorted le x l ↔ a = x ∨ a ∈ l := by
  rw [(insertSorted_perm le x l).mem_iff, List.mem_cons]

theorem pairwise_insertSorted {α : Type} {le : α → α → Bool}
    (htot : ∀ a b, le a b = true ∨ le b a = true)
    (htrans : ∀ a b c, le a b = true → le b c = true → le a c = true)
    (x : α) (l : List α) (h : l.Pairwise (fun a b => le a b = true)) :
    (insertSorted le x l).Pairwise (fun a b => le a b = true) := by
  induction l with
  | nil => simp [insertSorted]
  | cons y ys ih =>
    rcases List.pairwise_cons.mp h with ⟨hy, hys⟩
    cases hxy : le x y with
    | true =>
      simp only [insertSorted, hxy, if_true]
      refine List.pairwise_cons.mpr ⟨?_, h⟩
      intro z hz
      rcases List.mem_cons.mp hz with rfl | hz
      · exact hxy
      · exact htrans x y z hxy (hy z hz)
    | false =>
      simp only [insertSorted, hxy, Bool.false_eq_true, if_false]
      refine List.pairwise_cons.mpr ⟨?_, ih hys⟩
      intro z hz
      rcases (mem_insertSorted le x z ys).mp hz with rfl | hz
      · rcases htot z y with hzy | hyz
        · exact absurd hzy (by simp [hxy])
        · exact hyz
      · exact hy z hz

theorem sortBy_pairwise {α : Type} {le : α → α → Bool}
    (htot : ∀ a b, le a b = true ∨ le b a = true)
    (htrans : ∀ a b c, le a b = true → le b c = true → le a c = true)
    (l : List α) :
    (sortBy le l).Pairwise (fun a b => le a b = true) := by
  induction l with
  | nil => simp [sortBy]
  | cons x xs ih => exact pairwise_insertSorted htot htrans x (sortBy le xs) ih

theorem sortBy_eq_self {α : Type} {le : α → α → Bool} {l : List α}
    (h : l.Pairwise (fun a b => le a b = true)) : sortBy le l = l := by
  induction l with
  | nil => rfl
  | cons x xs ih =>
    rcases List.pairwise_cons.mp h with ⟨hx, hxs⟩
    rw [sortBy, ih hxs]
    cases xs with
    | nil => rfl
    | cons y ys => simp [insertSorted, hx y (List.mem_cons_self y ys)]

theorem eq_of_perm_of_pairwise {α : Type} {le : α → α → Bool} :
    ∀ {l₁ l₂ : List α}, List.Perm l₁ l₂ →
    l₁.Pairwise (fun a b => le a b = true) →
    l₂.Pairwise (fun a b => le a b = true) →
    (∀ a ∈ l₁, ∀ b ∈ l₁, le a b = true → le b a = true → a = b) →
    l₁ = l₂
  | [], l₂, hp, _, _, _ => (List.Perm.eq_nil hp.symm).symm
  | a :: t₁, l₂, hp, h₁, h₂, hanti => by
    cases l₂ with
    | nil => exact absurd (List.Perm.eq_nil hp) (by simp)
    | cons b t₂ =>
      by_cases hab : a = b
      · subst hab
        have ht : List.Perm t₁ t₂ := hp.cons_inv
        have := eq_of_perm_of_pairwise ht (List.pairwise_cons.mp h₁).2
          (List.pairwise_cons.mp h₂).2
          (fun x hx y hy => hanti x (List.mem_cons_of_mem a hx) y (List.mem_cons_of_mem a hy))
        rw [this]
      · have hat₂ : a ∈ t₂ := by
          have : a ∈ b :: t₂ := hp.subset (List.mem_cons_self a t₁)
          exact (List.mem_cons.mp this).resolve_left hab
        have hbt₁ : b ∈ t₁ := by
          have : b ∈ a :: t₁ := hp.symm.subset (List.mem_cons_self b t₂)
          exact (List.mem_cons.mp this).resolve_left (fun h => hab h.symm)
        have h1 : le a b = true :=
          (List.pairwise_cons.mp h₁).1 b hbt₁
        have h2 : le b a = true :=
          (List.pairwise_cons.mp h₂).1 a hat₂
        exact absurd (hanti a (List.mem_cons_self a t₁) b (List.mem_cons_of_mem a hbt₁) h1 h2)
          hab

theorem sortBy_eq_of_perm {α : Type} {le : α → α → Bool} {l l' : List α}
    (hp : List.Perm l l')
    (htot : ∀ a b, le a b = true ∨ le b a = true)
    (htrans : ∀ a b c, le a b = true → le b c = true → le a c = true)
    (hanti : ∀ a ∈ l, ∀ b ∈ l, le a b = true → le b a = true → a = b) :
    sortBy le l = sortBy le l' := by
  refine eq_of_perm_of_pairwise
    (((sortBy_perm le l).trans hp).trans (sortBy_perm le l').symm)
    (sortBy_pairwise htot htrans l) (sortBy_pairwise htot htrans l') ?_
  intro a ha b hb
  exact hanti a ((sortBy_perm le l).subset ha) b ((sortBy_perm le l).subset hb)

theorem mem_setInsert {α : Type} [DecidableEq α] (x a : α) (s : List α) :
    a ∈ setInsert x s ↔ a = x ∨ a ∈ s := by
  by_cases h : x ∈ s
  · simp only [setInsert, if_pos h]
    constructor
    · exact Or.inr
    · rintro (rfl | ha)
      · exact h
      · exact ha
  · simp [setInsert, if_neg h, or_comm]

theorem mem_setUnionList {α : Type} [DecidableEq α] (a : α) :
    ∀ (xs acc : List α), a ∈ setUnionList acc xs ↔ a ∈ acc ∨ a ∈ xs
  | [], acc => by simp [setUnionList]
  | x :: xs, acc => by
    simp only [setUnionList, List.foldl_cons]
    rw [show (List.foldl (fun s t => setInsert t s) (setInsert x acc) xs)
          = setUnionList (setInsert x acc) xs from rfl,
      mem_setUnionList a xs (setInsert x acc), mem_setInsert]
    simp only [List.mem_cons]
    tauto

theorem setUnionList_eq_nil {α : Type} [DecidableEq α] :
    ∀ (xs acc : List α), acc = [] → xs = [] → setUnionList acc xs = []
  | [], _, h, _ => h
  | _ :: _, _, _, h => by cases h

/-! ## Properties of the Go string order -/

theorem charListLt_nil_right : ∀ a : List Char, charListLt a [] = false
  | [] => rfl
  | _ :: _ => rfl

theorem charListLt_irrefl : ∀ l : List Char, charListLt l l = false
  | [] => rfl
  | a :: as => by simp [charListLt, charListLt_irrefl as]

theorem charListLt_trans :
    ∀ {a b c : List Char}, charListLt a b = true → charListLt b c = true →
      charListLt a c = true
  | a, [], _, hab, _ => by rw [charListLt_nil_right] at hab; cases hab
  | _, _ :: _, [], _, hbc => by rw [charListLt_nil_right] at hbc; cases hbc
  | [], _ :: _, _ :: _, _, _ => rfl
  | x :: xs, y :: ys, z :: zs, hab, hbc => by
    simp only [charListLt] at hab hbc ⊢
    split at hab
    · rename_i hxy
      split at hbc
      · rename_i hyz
        rw [if_pos (by omega)]
      · split at hbc
        · rename_i hyz
          rw [if_pos (by omega)]
        · cases hbc
    · split at hab
      · rename_i hxy
        split at hbc
        · rename_i hyz
          rw [if_pos (by omega)]
        · split at hbc
          · rename_i hyz
            rw [if_neg (by omega), if_pos (by omega)]
            exact charListLt_trans hab hbc
          · cases hbc
      · cases hab

theorem charListLt_connex :
    ∀ {a b : List Char}, charListLt a b = false → charListLt b a = false → a = b
  | [], [], _, _ => rfl
  | [], _ :: _, hab, _ => by cases hab
  | _ :: _, [], _, hba => by cases hba
  | x :: xs, y :: ys, hab, hba => by
    simp only [charListLt] at hab hba
    split at hab
    · cases hab
    · split at hba
      · cases hba
      · rename_i hxy hyx
        have hxyeq : x.toNat = y.toNat := by omega
        have hx : x = y := Char.ext (UInt32.ext hxyeq)
        subst hx
        rw [if_pos rfl] at hab hba
        rw [charListLt_connex hab hba]

theorem goStringLe_total (a b : String) :
    goStringLe a b = true ∨ goStringLe b a = true := by
  by_cases h1 : charListLt b.data a.data
  · by_cases h2 : charListLt a.data b.data
    · exact absurd (charListLt_trans h1 h2) (by simp [charListLt_irrefl])
    · exact Or.inr (by simp [goStringLe, goStringLt, h2])
  · exact Or.inl (by simp [goStringLe, goStringLt, h1])

theorem goStringLe_trans {a b c : String} (hab : goStringLe a b = true)
    (hbc : goStringLe b c = true) : goStringLe a c = true := by
  simp only [goStringLe, goStringLt, Bool.not_eq_true'] at hab hbc ⊢
  by_contra h
  have hca : charListLt c.data a.data = true := by
    cases hv : charListLt c.data a.data
    · exact absurd hv (by simpa using h)
    · rfl
  by_cases hba : charListLt b.data a.data = true
  · exact absurd hba (by simp [hab])
  · have : b.data = a.data ∨ charListLt a.data b.data = true := by
      by_cases hrev : charListLt a.data b.data = true
      · exact Or.inr hrev
      · exact Or.inl (charListLt_connex (by simpa using hba) (by simpa using hrev))
    rcases this with heq | hlt
    · rw [← heq] at hca
      exact absurd hca (by simp [hbc])
    · exact absurd (charListLt_trans hca hlt) (by simp [hbc])

theorem goStringLe_antisymm {a b : String} (hab : goStringLe a b = true)
    (hba : goStringLe b a = true) : a = b := by
  simp only [goStringLe, goStringLt, Bool.not_eq_true'] at hab hba
  cases a with
  | mk da =>
    cases b with
    | mk db =>
      exact congrArg String.mk (charListLt_connex hba hab)

theorem natKeyLe_total {α : Type} (k : α → Nat) (a b : α) :
    natKeyLe k a b = true ∨ natKeyLe k b a = true := by
  simp only [natKeyLe, decide_eq_true_eq]
  omega

theorem natKeyLe_trans {α : Type} (k : α → Nat) (a b c : α)
    (hab : natKeyLe k a b = true) (hbc : natKeyLe k b c = true) :
    natKeyLe k a c = true := by
  simp only [natKeyLe, decide_eq_true_eq] at hab hbc ⊢
  omega

theorem natKeyLe_key_eq {α : Type} (k : α → Nat) {a b : α}
    (hab : natKeyLe k a b = true) (hba : natKeyLe k b a = true) : k a = k b := by
  simp only [natKeyLe, decide_eq_true_eq] at hab hba
  omega

/-! ## Analysis of the merge fold -/

/-- A record list whose file priorities are strictly increasing: the
canonical listing / web-detail / api-detail situation.  On such lists any
correct sort (in particular Go's `sort.Slice` and the model) acts as the
identity. -/
def PrioritySortedStrict (l : List AddonData) : Prop :=
  l.Pairwise (fun a b => dataPriority a < dataPriority b)

/-- Pairwise-distinct file priorities (arrival-order independence needs
exactly this: on ties `sort.Slice` gives no guarantee). -/
def PriorityDistinct (l : List AddonData) : Prop :=
  l.Pairwise (fun a b => dataPriority a ≠ dataPriority b)

theorem sortBy_priority_eq_self {l : List AddonData} (h : PrioritySortedStrict l) :
    sortBy (natKeyLe dataPriority) l = l := by
  refine sortBy_eq_self (List.Pairwise.imp ?_ h)
  intro a b hab
  simp only [natKeyLe, decide_eq_true_eq]
  omega

theorem sortBy_priority_eq_of_perm {l l' : List AddonData}
    (hp : List.Perm l l') (hd : PriorityDistinct l) :
    sortBy (natKeyLe dataPriority) l = sortBy (natKeyLe dataPriority) l' := by
  refine sortBy_eq_of_perm hp (natKeyLe_total dataPriority)
    (fun a b c => natKeyLe_trans dataPriority a b c) ?_
  intro a ha b hb hab hba
  by_contra hne
  have hsym : Symmetric (fun a b : AddonData => dataPriority a ≠ dataPriority b) :=
    fun _ _ h => fun heq => h heq.symm
  exact hd.forall hsym ha hb hne (natKeyLe_key_eq dataPriority hab hba)

theorem foldl_mergeStep_name_silent :
    ∀ (l : List AddonData) (acc : MergeAcc), (∀ e ∈ l, e.name = "") →
      (l.foldl mergeStep acc).merged.name = acc.merged.name
  | [], _, _ => rfl
  | d :: l, acc, h => by
    rw [List.foldl_cons,
      foldl_mergeStep_name_silent l _ (fun e he => h e (List.mem_cons_of_mem d he))]
    simp [mergeStep, mergeScalars, h d (List.mem_cons_self d l)]

theorem foldl_mergeStep_description_silent :
    ∀ (l : List AddonData) (acc : MergeAcc), (∀ e ∈ l, e.description = "") →
      (l.foldl mergeStep acc).merged.description = acc.merged.description
  | [], _, _ => rfl
  | d :: l, acc, h => by
    rw [List.foldl_cons,
      foldl_mergeStep_description_silent l _ (fun e he => h e (List.mem_cons_of_mem d he))]
    simp [mergeStep, mergeScalars, h d (List.mem_cons_self d l)]

theorem foldl_mergeStep_downloadCount_silent :
    ∀ (l : List AddonData) (acc : MergeAcc),
      (∀ e ∈ l, ∀ c, e.downloadCount = some c → c ≤ 0) →
      (l.foldl mergeStep acc).merged.downloadCount = acc.merged.downloadCount
  | [], _, _ => rfl
  | d :: l, acc, h => by
    rw [List.foldl_cons,
      foldl_mergeStep_downloadCount_silent l _
        (fun e he => h e (List.mem_cons_of_mem d he))]
    rcases hc : d.downloadCount with _ | c
    · simp [mergeStep, mergeScalars, hc]
    · have : c ≤ 0 := h d (List.mem_cons_self d l) c hc
      simp only [mergeStep, mergeScalars, hc]
      rw [if_neg (by omega)]

theorem foldl_mergeStep_updated_silent :
    ∀ (l : List AddonData) (acc : MergeAcc),
      (∀ e ∈ l, ∀ t, e.updatedDate = some t → t = 0) →
      (l.foldl mergeStep acc).merged.updatedDate = acc.merged.updatedDate
  | [], _, _ => rfl
  | d :: l, acc, h => by
    rw [List.foldl_cons,
      foldl_mergeStep_updated_silent l _ (fun e he => h e (List.mem_cons_of_mem d he))]
    rcases ht : d.updatedDate with _ | t
    · simp [mergeStep, mergeScalars, ht]
    · have : t = 0 := h d (List.mem_cons_self d l) t ht
      simp [mergeStep, mergeScalars, ht, this]

theorem foldl_mergeStep_tracks_mem :
    ∀ (l : List AddonData) (acc : MergeAcc) (t : GameTrack),
      t ∈ (l.foldl mergeStep acc).gameTrackSet ↔
        t ∈ acc.gameTrackSet ∨ ∃ e ∈ l, t ∈ e.gameTrackSet
  | [], _, _ => by simp
  | d :: l, acc, t => by
    rw [List.foldl_cons, foldl_mergeStep_tracks_mem l (mergeStep acc d) t]
    simp only [mergeStep, mem_setUnionList, List.mem_cons]
    constructor
    · rintro ((h | h) | ⟨e, he, h⟩)
      · exact Or.inl h
      · exact Or.inr ⟨d, Or.inl rfl, h⟩
      · exact Or.inr ⟨e, Or.inr he, h⟩
    · rintro (h | ⟨e, rfl | he, h⟩)
      · exact Or.inl (Or.inl h)
      · exact Or.inl (Or.inr h)
      · exact Or.inr ⟨e, he, h⟩

theorem foldl_mergeStep_tags_mem :
    ∀ (l : List AddonData) (acc : MergeAcc) (s : String),
      s ∈ (l.foldl mergeStep acc).tagSet ↔
        s ∈ acc.tagSet ∨ ∃ e ∈ l, s ∈ e.tagSet
  | [], _, _ => by simp
  | d :: l, acc, s => by
    rw [List.foldl_cons, foldl_mergeStep_tags_mem l (mergeStep acc d) s]
    simp only [mergeStep, mem_setUnionList, List.mem_cons]
    constructor
    · rintro ((h | h) | ⟨e, he, h⟩)
      · exact Or.inl h
      · exact Or.inr ⟨d, Or.inl rfl, h⟩
      · exact Or.inr ⟨e, Or.inr he, h⟩
    · rintro (h | ⟨e, rfl | he, h⟩)
      · exact Or.inl (Or.inl h)
      · exact Or.inl (Or.inr h)
      · exact Or.inr ⟨e, he, h⟩

theorem foldl_mergeStep_tracks_nil :
    ∀ (l : List AddonData) (acc : MergeAcc), (∀ e ∈ l, e.gameTrackSet = []) →
      acc.gameTrackSet = [] → (l.foldl mergeStep acc).gameTrackSet = []
  | [], _, _, hacc => hacc
  | d :: l, acc, h, hacc => by
    rw [List.foldl_cons]
    refine foldl_mergeStep_tracks_nil l _ (fun e he => h e (List.mem_cons_of_mem d he)) ?_
    show setUnionList acc.gameTrackSet d.gameTrackSet = []
    exact setUnionList_eq_nil _ _ hacc (h d (List.mem_cons_self d l))

/-- Characterisation of a successful `finalizeMerge`: field-by-field. -/
theorem finalizeMerge_eq_some {acc : MergeAcc} {m : Addon}
    (h : finalizeMerge acc = some m) :
    acc.merged.updatedDate ≠ 0 ∧
    m.updatedDate = acc.merged.updatedDate ∧
    m.name = acc.merged.name ∧
    m.label = acc.merged.label ∧
    m.description = acc.merged.description ∧
    m.url = acc.merged.url ∧
    m.downloadCount = acc.merged.downloadCount ∧
    m.createdDate = acc.merged.createdDate ∧
    m.source = acc.merged.source ∧
    m.sourceID = acc.merged.sourceID ∧
    m.tagList = stringSetToSortedSlice acc.tagSet ∧
    m.gameTrackList =
      (if gameTrackSetToSortedSlice acc.gameTrackSet = [] then [GameTrack.retail]
       else gameTrackSetToSortedSlice acc.gameTrackSet) := by
  simp only [finalizeMerge] at h
  split at h
  · cases h
  · rename_i h0
    split at h
    · rename_i hnil
      cases h
      refine ⟨h0, ?_⟩
      simp [hnil]
    · rename_i hnil
      cases h
      refine ⟨h0, ?_⟩
      simp [hnil]

theorem finalizeMerge_none_of_zero {acc : MergeAcc}
    (h : acc.merged.updatedDate = 0) : finalizeMerge acc = none := by
  simp only [finalizeMerge]
  rw [if_pos]
  exact h

/-! ## Claim C1 -/

/-- Modelled from the spec: ascending order on entity ids, where an entity
id is the (source, source-id) pair, compared lexicographically with the
source name first.  This is the ordering the claim asserts; the code's
`BuildCatalogue` is compared against it. -/
def specEntityIdLe (a b : Addon) : Bool :=
  goStringLt (sourceStr a.source) (sourceStr b.source) ||
    (sourceStr a.source == sourceStr b.source && goStringLe a.sourceID b.sourceID)

/-- A wowinterface addon with source-id 1: comes second in entity-id order
but first in source-id order. -/
def c1AddonW : Addon :=
  { createdDate := none, description := "", downloadCount := none
    gameTrackList := [GameTrack.retail], label := "A", name := "a"
    source := Source.wowinterface, sourceID := "1", tagList := []
    url := "https://example.com/a", updatedDate := 5 }

/-- A github addon with source-id 2: comes first in entity-id order but
second in source-id order. -/
def c1AddonG : Addon :=
  { c1AddonW with source := Source.github, sourceID := "2" }

/-- C1 (counterexample): `BuildCatalogue` sorts by source-id only, so on
the two addons (wowinterface, 1) and (github, 2) the produced list is not
sorted ascending by the (source, source-id) entity id, refuting the claim
at this concrete input. -/
theorem buildCatalogue_not_entity_id_sorted :
    ¬ ((buildCatalogue "2024-01-01" [c1AddonW, c1AddonG] []).addonSummaryList.Pairwise
        (fun a b => specEntityIdLe a b = true)) := by
  decide

/-- C1 (amended): for every input list of addons and every source
allow-list, the catalogue returned by `BuildCatalogue` has `Total` equal to
the length of its `AddonSummaryList`, and the `AddonSummaryList` is sorted
ascending by source-id alone (the source is not compared). -/
theorem buildCatalogue_total_and_sourceID_sorted
    (today : String) (addons : List Addon) (sources : List Source) :
    (buildCatalogue today addons sources).total
        = (buildCatalogue today addons sources).addonSummaryList.length ∧
    (buildCatalogue today addons sources).addonSummaryList.Pairwise
        (fun a b => goStringLe a.sourceID b.sourceID = true) := by
  refine ⟨rfl, ?_⟩
  exact @sortBy_pairwise Addon (fun a b : Addon => goStringLe a.sourceID b.sourceID)
    (fun a b => goStringLe_total a.sourceID b.sourceID)
    (fun a b c hab hbc => goStringLe_trans hab hbc)
    (if sources ≠ [] then addons.filter (fun a => decide (a.source ∈ sources)) else addons)

/-! ## Claim C10 -/

/-- C10: `ShortenCatalogue` and `FilterCatalogue` leave `Spec` and
`Datestamp` equal to the input's, and in both results `Total` equals the
length of the filtered `AddonSummaryList`. -/
theorem shorten_filter_frame (c : Catalogue) (cutoff : Nat) (p : Addon → Bool) :
    (shortenCatalogue c cutoff).spec = c.spec ∧
    (shortenCatalogue c cutoff).datestamp = c.datestamp ∧
    (shortenCatalogue c cutoff).total
        = (shortenCatalogue c cutoff).addonSummaryList.length ∧
    (filterCatalogue c p).spec = c.spec ∧
    (filterCatalogue c p).datestamp = c.datestamp ∧
    (filterCatalogue c p).total = (filterCatalogue c p).addonSummaryList.length :=
  ⟨rfl, rfl, rfl, rfl, rfl, rfl⟩

/-! ## Claim C3 -/

/-- C3: for every non-empty record list, if every record's update date is
absent or zero (so the folded timestamp stays zero) the merge yields
`none`; otherwise a produced record has a non-zero update date, a
non-empty track list (exactly `[retail]` when no track was ever observed),
tracks sorted by the canonical `AllGameTracks` order and tags sorted
lexicographically. -/
theorem mergeAddonData_invariants (l : List AddonData) (_hne : l ≠ []) :
    ((∀ d ∈ l, d.updatedDate = none ∨ d.updatedDate = some 0) →
      mergeAddonData l = none) ∧
    (∀ m : Addon, mergeAddonData l = some m →
      m.updatedDate ≠ 0 ∧
      m.gameTrackList ≠ [] ∧
      ((∀ d ∈ l, d.gameTrackSet = []) → m.gameTrackList = [GameTrack.retail]) ∧
      m.gameTrackList.Pairwise (fun a b => trackOrder a ≤ trackOrder b) ∧
      m.tagList.Pairwise (fun a b => goStringLe a b = true)) := by
  have hperm := sortBy_perm (natKeyLe dataPriority) l
  constructor
  · intro hz
    cases hs : sortBy (natKeyLe dataPriority) l with
    | nil => simp [mergeAddonData, hs]
    | cons first rest =>
      have hzs : ∀ d ∈ first :: rest, ∀ t, d.updatedDate = some t → t = 0 := by
        intro d hd t ht
        rcases hz d (hperm.subset (hs ▸ hd)) with h | h
        · rw [h] at ht; cases ht
        · rw [h] at ht; cases ht; rfl
      have hupd : (mergeFold first rest).merged.updatedDate = 0 := by
        unfold mergeFold
        rw [foldl_mergeStep_updated_silent _ _ hzs]
        rfl
      simp [mergeAddonData, hs, finalizeMerge_none_of_zero hupd]
  · intro m hm
    cases hs : sortBy (natKeyLe dataPriority) l with
    | nil => rw [mergeAddonData, hs] at hm; cases hm
    | cons first rest =>
      rw [mergeAddonData, hs] at hm
      rcases finalizeMerge_eq_some hm with
        ⟨h0, hupd, _, _, _, _, _, _, _, _, htag, htrk⟩
      refine ⟨by rw [hupd]; exact h0, ?_, ?_, ?_, ?_⟩
      · rw [htrk]
        split
        · simp
        · rename_i hnil
          exact hnil
      · intro hall
        have hnil : (mergeFold first rest).gameTrackSet = [] := by
          unfold mergeFold
          refine foldl_mergeStep_tracks_nil _ _ ?_ rfl
          intro e he
          exact hall e (hperm.subset (hs ▸ he))
        rw [htrk]
        rw [show gameTrackSetToSortedSlice (mergeFold first rest).gameTrackSet = [] by
          rw [hnil]; rfl]
        rfl
      · rw [htrk]
        split
        · simp
        · have := @sortBy_pairwise GameTrack (natKeyLe trackOrder)
            (natKeyLe_total trackOrder) (fun a b c => natKeyLe_trans trackOrder a b c)
            (mergeFold first rest).gameTrackSet
          refine List.Pairwise.imp ?_ this
          intro a b hab
          simpa [natKeyLe] using hab
      · rw [htag]
        exact @sortBy_pairwise String goStringLe goStringLe_total
          (fun a b c hab hbc => goStringLe_trans hab hbc)
          (mergeFold first rest).tagSet

/-- The api-detail fixture used to instantiate `mergeAddonData_invariants`:
its only data is a non-zero update date. -/
def c3Data : AddonData :=
  { source := Source.wowinterface, sourceID := "77", filename := "api-detail.json"
    updatedDate := some 5, tagSet := ["inventory", "bags"] }

/-- A record that never supplies an update date. -/
def c3NoDate : AddonData :=
  { source := Source.wowinterface, sourceID := "78", filename := "listing.json"
    name := "nodate" }

/-- C3 (witness): the invariants theorem applied at concrete inputs: the
record without a timestamp is dropped, and the record with one merges to a
defaulted retail track list with a non-zero date. -/
theorem mergeAddonData_invariants_witness :
    mergeAddonData [c3NoDate] = none ∧
    ∀ m : Addon, mergeAddonData [c3Data] = some m →
      m.updatedDate ≠ 0 ∧ m.gameTrackList = [GameTrack.retail] := by
  constructor
  · exact (mergeAddonData_invariants [c3NoDate] (by decide)).1 (by decide)
  · intro m hm
    have h := (mergeAddonData_invariants [c3Data] (by decide)).2 m hm
    exact ⟨h.1, h.2.2.1 (by decide)⟩

/-! ## Claim C2 -/

/-- A listing record carrying a positive download count. -/
def c2Listing : AddonData :=
  { source := Source.wowinterface, sourceID := "1", filename := "listing.json"
    downloadCount := some 100 }

/-- An api-detail record whose download count is present but zero
(a non-nil `*int` pointing at 0), plus the mandatory update date. -/
def c2Api : AddonData :=
  { source := Source.wowinterface, sourceID := "1", filename := "api-detail.json"
    downloadCount := some 0, updatedDate := some 5 }

/-- C2 (counterexample): `downloadCount` is present in the later
(api-detail) record with value 0, so by the claim it must overwrite the
listing's 100; the code keeps 100 because it only takes download counts
that are strictly positive. -/
theorem mergeAddonData_present_zero_not_overwriting :
    c2Api.downloadCount = some 0 ∧
    (mergeAddonData [c2Listing, c2Api]).map (fun a => a.downloadCount)
        = some (some 100) ∧
    (mergeAddonData [c2Listing, c2Api]).map (fun a => a.downloadCount)
        ≠ some c2Api.downloadCount := by
  decide

/-- The claim's listing record: only name and download count. -/
def c2ListingOnly : AddonData :=
  { source := Source.wowinterface, sourceID := "12345", filename := "listing.json"
    name := "test-addon", downloadCount := some 100 }

/-- The claim's web-detail record: only a description. -/
def c2WebOnly : AddonData :=
  { source := Source.wowinterface, sourceID := "12345", filename := "web-detail.json"
    description := "A test addon for unit testing" }

/-- The claim's api-detail record: only an update date. -/
def c2ApiOnly : AddonData :=
  { source := Source.wowinterface, sourceID := "12345", filename := "api-detail.json"
    updatedDate := some 7 }

/-- The merge of the three one-field records: all four fields populated. -/
def c2MergedAll : Addon :=
  { createdDate := none, description := "A test addon for unit testing"
    downloadCount := some 100, gameTrackList := [GameTrack.retail], label := ""
    name := "test-addon", source := Source.wowinterface, sourceID := "12345"
    tagList := [], url := "", updatedDate := 7 }

/-- C2 (amended): `MergeAddonData` folds records in ascending file-priority
order.  A scalar present **with a non-empty / non-zero value** in a record
overwrites the prior value and, when every later record leaves that field
empty, survives to the output; absence (or an empty / zero value) in later
records never erases it.  Track and tag collections are the union over all
records — except that an all-empty track union is replaced by the default
retail track.  The three one-field records of the claim merge to a record
with all four fields populated. -/
theorem mergeAddonData_merge_rules :
    (∀ (l₁ l₂ : List AddonData) (d : AddonData) (m : Addon),
      PrioritySortedStrict (l₁ ++ d :: l₂) →
      mergeAddonData (l₁ ++ d :: l₂) = some m →
      ((d.name ≠ "" → (∀ e ∈ l₂, e.name = "") → m.name = d.name) ∧
       (d.description ≠ "" → (∀ e ∈ l₂, e.description = "") →
         m.description = d.description) ∧
       (∀ c : Int, d.downloadCount = some c → 0 < c →
         (∀ e ∈ l₂, ∀ c2, e.downloadCount = some c2 → c2 ≤ 0) →
         m.downloadCount = some c) ∧
       (∀ t : Nat, d.updatedDate = some t → t ≠ 0 →
         (∀ e ∈ l₂, ∀ t2, e.updatedDate = some t2 → t2 = 0) →
         m.updatedDate = t))) ∧
    (∀ (l : List AddonData) (m : Addon), mergeAddonData l = some m →
      (∀ s : String, s ∈ m.tagList ↔ ∃ e ∈ l, s ∈ e.tagSet) ∧
      ((∃ e ∈ l, e.gameTrackSet ≠ []) →
        ∀ t : GameTrack, t ∈ m.gameTrackList ↔ ∃ e ∈ l, t ∈ e.gameTrackSet)) ∧
    mergeAddonData [c2ListingOnly, c2WebOnly, c2ApiOnly] = some c2MergedAll := by
  refine ⟨?_, ?_, by decide⟩
  · intro l₁ l₂ d m hsorted hm
    rw [mergeAddonData, sortBy_priority_eq_self hsorted] at hm
    rcases hCons : l₁ ++ d :: l₂ with _ | ⟨first, rest⟩
    · exact absurd hCons (by simp)
    · rw [hCons] at hm
      rcases finalizeMerge_eq_some hm with
        ⟨_, hupd, hname, _, hdesc, _, hdc, _, _, _, _, _⟩
      have hfold : mergeFold first rest =
          l₂.foldl mergeStep (mergeStep (l₁.foldl mergeStep
            { merged := initMerged first, gameTrackSet := [], tagSet := [] }) d) := by
        unfold mergeFold
        rw [← hCons, List.foldl_append, List.foldl_cons]
      refine ⟨?_, ?_, ?_, ?_⟩
      · intro hd hl₂
        rw [hname, hfold, foldl_mergeStep_name_silent l₂ _ hl₂]
        simp [mergeStep, mergeScalars, hd]
      · intro hd hl₂
        rw [hdesc, hfold, foldl_mergeStep_description_silent l₂ _ hl₂]
        simp [mergeStep, mergeScalars, hd]
      · intro c hc hcpos hl₂
        rw [hdc, hfold, foldl_mergeStep_downloadCount_silent l₂ _ hl₂]
        show (mergeScalars _ d).downloadCount = some c
        simp only [mergeScalars, hc]
        rw [if_pos hcpos]
      · intro t ht htne hl₂
        rw [hupd, hfold, foldl_mergeStep_updated_silent l₂ _ hl₂]
        show (mergeScalars _ d).updatedDate = t
        simp only [mergeScalars, ht]
        rw [if_pos htne]
  · intro l m hm
    cases hs : sortBy (natKeyLe dataPriority) l with
    | nil => rw [mergeAddonData, hs] at hm; cases hm
    | cons first rest =>
      rw [mergeAddonData, hs] at hm
      rcases finalizeMerge_eq_some hm with
        ⟨_, _, _, _, _, _, _, _, _, _, htag, htrk⟩
      have hmem : ∀ e : AddonData, e ∈ first :: rest ↔ e ∈ l := by
        intro e
        rw [← hs]
        exact (sortBy_perm (natKeyLe dataPriority) l).mem_iff
      constructor
      · intro s
        rw [htag]
        unfold stringSetToSortedSlice
        rw [(sortBy_perm goStringLe _).mem_iff]
        unfold mergeFold
        rw [foldl_mergeStep_tags_mem]
        simp only [List.not_mem_nil, false_or]
        constructor
        · rintro ⟨e, he, hse⟩
          exact ⟨e, (hmem e).mp he, hse⟩
        · rintro ⟨e, he, hse⟩
          exact ⟨e, (hmem e).mpr he, hse⟩
      · rintro ⟨e0, he0, hne0⟩ t
        have hacc : ∃ t0 : GameTrack, t0 ∈ (mergeFold first rest).gameTrackSet := by
          rcases List.exists_mem_of_ne_nil _ hne0 with ⟨t0, ht0⟩
          refine ⟨t0, ?_⟩
          unfold mergeFold
          rw [foldl_mergeStep_tracks_mem]
          exact Or.inr ⟨e0, (hmem e0).mpr he0, ht0⟩
        have hslice : gameTrackSetToSortedSlice (mergeFold first rest).gameTrackSet ≠ [] := by
          intro hcontra
          rcases hacc with ⟨t0, ht0⟩
          have : t0 ∈ gameTrackSetToSortedSlice (mergeFold first rest).gameTrackSet := by
            unfold gameTrackSetToSortedSlice
            rw [(sortBy_perm (natKeyLe trackOrder) _).mem_iff]
            exact ht0
          rw [hcontra] at this
          cases this
        rw [htrk, if_neg hslice]
        unfold gameTrackSetToSortedSlice
        rw [(sortBy_perm (natKeyLe trackOrder) _).mem_iff]
        unfold mergeFold
        rw [foldl_mergeStep_tracks_mem]
        simp only [List.not_mem_nil, false_or]
        constructor
        · rintro ⟨e, he, hte⟩
          exact ⟨e, (hmem e).mp he, hte⟩
        · rintro ⟨e, he, hte⟩
          exact ⟨e, (hmem e).mpr he, hte⟩

/-- C2 (witness): the amended merge rules applied at the claim's concrete
three-record scenario. -/
theorem mergeAddonData_merge_rules_witness :
    c2MergedAll.name = c2ListingOnly.name ∧
    mergeAddonData [c2ListingOnly, c2WebOnly, c2ApiOnly] = some c2MergedAll := by
  refine ⟨?_, mergeAddonData_merge_rules.2.2⟩
  have h := (mergeAddonData_merge_rules.1 [] [c2WebOnly, c2ApiOnly] c2ListingOnly
      c2MergedAll (by unfold PrioritySortedStrict; decide)
      mergeAddonData_merge_rules.2.2).1
  exact h (by decide) (by decide)

/-! ## Claim C8 -/

/-- A listing record named x.  Same identity and file priority as
`c8RecY`. -/
def c8RecX : AddonData :=
  { source := Source.wowinterface, sourceID := "9", filename := "listing.json"
    name := "x", updatedDate := some 5 }

/-- A listing record named y. -/
def c8RecY : AddonData :=
  { source := Source.wowinterface, sourceID := "9", filename := "listing.json"
    name := "y", updatedDate := some 5 }

/-- C8 (counterexample): two records of one identity with the **same** file
priority merge to different records depending on arrival order (the later
one's name wins), so the two permutations of the same per-identity list
produce different outputs.  (Go's `sort.Slice` performs no swap on a
two-element slice whose `less` is false both ways, exactly as the model.) -/
theorem mergeAddonData_order_dependent :
    List.Perm [c8RecX, c8RecY] [c8RecY, c8RecX] ∧
    mergeAddonData [c8RecX, c8RecY] ≠ mergeAddonData [c8RecY, c8RecX] := by
  refine ⟨List.Perm.swap c8RecY c8RecX [], by decide⟩

/-- C8 (amended): outputs are independent of arrival order **provided the
records of an identity have pairwise-distinct file priorities** (for the
merge) and the addons have pairwise-distinct source-ids (for the catalogue,
which holds in the pipeline because merged records are keyed by source-id);
the datestamp is the same input on both sides. -/
theorem merge_and_build_order_independent :
    (∀ (l l' : List AddonData), List.Perm l l' → PriorityDistinct l →
      mergeAddonData l = mergeAddonData l') ∧
    (∀ (today : String) (addons addons' : List Addon) (sources : List Source),
      List.Perm addons addons' →
      addons.Pairwise (fun a b => a.sourceID ≠ b.sourceID) →
      buildCatalogue today addons sources = buildCatalogue today addons' sources) := by
  constructor
  · intro l l' hp hd
    rw [mergeAddonData, mergeAddonData, sortBy_priority_eq_of_perm hp hd]
  · intro today addons addons' sources hp hd
    have hfiltp : List.Perm
        (if sources ≠ [] then addons.filter (fun a => decide (a.source ∈ sources))
         else addons)
        (if sources ≠ [] then addons'.filter (fun a => decide (a.source ∈ sources))
         else addons') := by
      split
      · exact hp.filter _
      · exact hp
    have hsub : ∀ a ∈ (if sources ≠ [] then
        addons.filter (fun a => decide (a.source ∈ sources)) else addons),
        a ∈ addons := by
      intro a ha
      split at ha
      · exact List.mem_of_mem_filter ha
      · exact ha
    have hEq : sortBy (fun a b : Addon => goStringLe a.sourceID b.sourceID)
        (if sources ≠ [] then addons.filter (fun a => decide (a.source ∈ sources))
         else addons)
        = sortBy (fun a b : Addon => goStringLe a.sourceID b.sourceID)
        (if sources ≠ [] then addons'.filter (fun a => decide (a.source ∈ sources))
         else addons') := by
      refine sortBy_eq_of_perm hfiltp
        (fun a b => goStringLe_total a.sourceID b.sourceID)
        (fun a b c hab hbc => goStringLe_trans hab hbc) ?_
      intro a ha b hb hab hba
      by_contra hne
      have hsym : Symmetric (fun a b : Addon => a.sourceID ≠ b.sourceID) :=
        fun _ _ h => fun heq => h heq.symm
      exact hd.forall hsym (hsub a ha) (hsub b hb) hne (goStringLe_antisymm hab hba)
    simp only [buildCatalogue]
    rw [hEq]

/-- A listing record for the C8 witness. -/
def c8Wit1 : AddonData :=
  { source := Source.wowinterface, sourceID := "42", filename := "listing.json"
    name := "a", updatedDate := some 3 }

/-- An api-detail record for the C8 witness (distinct priority). -/
def c8Wit2 : AddonData :=
  { source := Source.wowinterface, sourceID := "42", filename := "api-detail.json"
    description := "d" }

/-- C8 (witness): order independence applied at a concrete two-record,
two-priority identity and at a concrete two-addon catalogue. -/
theorem merge_and_build_order_independent_witness :
    mergeAddonData [c8Wit1, c8Wit2] = mergeAddonData [c8Wit2, c8Wit1] ∧
    buildCatalogue "2024-01-01" [c1AddonW, c1AddonG] []
        = buildCatalogue "2024-01-01" [c1AddonG, c1AddonW] [] := by
  constructor
  · exact merge_and_build_order_independent.1 [c8Wit1, c8Wit2] [c8Wit2, c8Wit1]
      (List.Perm.swap c8Wit2 c8Wit1 [])
      (by unfold PriorityDistinct; decide)
  · exact merge_and_build_order_independent.2 "2024-01-01" [c1AddonW, c1AddonG]
      [c1AddonG, c1AddonW] [] (List.Perm.swap c1AddonG c1AddonW []) (by decide)

/-! ## Retry policy (`src/retry/retry.go`)

A fetch outcome `client.Get(ctx, url) = (resp, err)` is modelled as an
`Option Response`: `none` is a network-level error (`err != nil`, `resp`
nil), `some r` a delivered response.  The canned outcome of attempt `n`
is `get n`.  Waiting and context cancellation do not affect which
attempts happen or what is returned, and are not modelled. -/

/-- `http.Response`, restricted to the fields the retry policy reads:
status code and headers. -/
structure Response : Type where
  statusCode : Int
  headers : List (String × String)
deriving DecidableEq, Repr

/-- Go map indexing `headers[key]` with the string zero value for a
missing key. -/
def headerGet (headers : List (String × String)) (key : String) : String :=
  match headers.find? (fun p => p.1 == key) with
  | some p => p.2
  | none => ""

/-- `retry.shouldRetry`: network errors, 429 and 5xx retry; everything
else does not. -/
def shouldRetry : Option Response → Bool
  | none => true
  | some resp =>
    if resp.statusCode = 429 then true
    else if resp.statusCode ≥ 500 then true
    else false

/-- `retry.Config` (durations in nanoseconds). -/
structure RetryConfig : Type where
  maxAttempts : Nat
  initialDelay : Nat
  maxDelay : Nat
deriving DecidableEq, Repr

/-- One second, as a `time.Duration` in nanoseconds. -/
def second : Nat := 1000000000

/-- `retry.DefaultConfig`. -/
def defaultRetryConfig : RetryConfig :=
  { maxAttempts := 3, initialDelay := 1 * second, maxDelay := 8 * second }

/-- The digit-run part of `strconv.Atoi`: value of a non-empty digit
string, `none` on any non-digit. -/
def digitsVal : List Char → Nat → Option Nat
  | [], acc => some acc
  | c :: rest, acc =>
    if 48 ≤ c.toNat ∧ c.toNat ≤ 57 then digitsVal rest (acc * 10 + (c.toNat - 48))
    else none

/-- `strconv.Atoi`: optional sign followed by at least one digit. -/
def goAtoi (s : String) : Option Int :=
  match s.data with
  | [] => none
  | '+' :: rest =>
    if rest = [] then none else (digitsVal rest 0).map (fun n => (n : Int))
  | '-' :: rest =>
    if rest = [] then none else (digitsVal rest 0).map (fun n => -(n : Int))
  | cs => (digitsVal cs 0).map (fun n => (n : Int))

/-- The doubling loop of `getRetryDelay` (`for i := 1; i < attempt; i++`),
run for the given number of iterations. -/
def backoffLoop (maxDelay : Nat) : Nat → Nat → Nat
  | delay, 0 => delay
  | delay, n + 1 =>
    let d := delay * 2
    if d > maxDelay then maxDelay else backoffLoop maxDelay d n

/-- `retry.getRetryDelay`: the Retry-After hint of a 429 response (when
non-empty, parseable and positive, capped at `maxDelay`), otherwise
exponential backoff starting at `initialDelay` with cap `maxDelay`. -/
def getRetryDelay (resp : Option Response) (attempt : Nat) (config : RetryConfig) :
    Nat :=
  match resp with
  | some r =>
    if r.statusCode = 429 then
      let retryAfter := headerGet r.headers "Retry-After"
      if retryAfter ≠ "" then
        match goAtoi retryAfter with
        | some seconds =>
          if seconds > 0 then
            let delay := seconds.toNat * second
            if delay > config.maxDelay then config.maxDelay else delay
          else backoffLoop config.maxDelay config.initialDelay (attempt - 1)
        | none => backoffLoop config.maxDelay config.initialDelay (attempt - 1)
      else backoffLoop config.maxDelay config.initialDelay (attempt - 1)
    else backoffLoop config.maxDelay config.initialDelay (attempt - 1)
  | none => backoffLoop config.maxDelay config.initialDelay (attempt - 1)

/-- What `WithRetry` hands back to its caller: a response with nil error,
a non-nil error, or the nil/nil pair possible only when `MaxAttempts < 1`. -/
inductive RetryResult : Type where
  | resp (r : Response)
  | err
  | nothing
deriving DecidableEq, Repr

/-- The return after the loop: wrapped `lastErr` if the last outcome was a
network error, else `lastResp` with nil error; `nothing` when no attempt
ran. -/
def wrExit : Option (Option Response) → RetryResult
  | some (some r) => RetryResult.resp r
  | some none => RetryResult.err
  | none => RetryResult.nothing

/-- The attempt loop of `retry.WithRetry`.  `attempt` is the 1-based
counter, `fuel` the remaining loop iterations (maintaining
`attempt + fuel = maxAttempts + 1`), `last` the stored
`lastResp`/`lastErr` pair.  Returns the number of fetches performed and
the caller-visible result.  For a network error `shouldRetry` is always
true, so the non-retryable return does not arise there. -/
def wrLoop (get : Nat → Option Response) (maxAttempts : Nat) :
    Nat → Nat → Option (Option Response) → Nat × RetryResult
  | attempt, 0, last => (attempt - 1, wrExit last)
  | attempt, fuel + 1, _ =>
    match get attempt with
    | some r =>
      if r.statusCode = 200 then (attempt, RetryResult.resp r)
      else if shouldRetry (some r) then
        if attempt = maxAttempts then (attempt, wrExit (some (some r)))
        else wrLoop get maxAttempts (attempt + 1) fuel (some (some r))
      else (attempt, RetryResult.resp r)
    | none =>
      if attempt = maxAttempts then (attempt, wrExit (some none))
      else wrLoop get maxAttempts (attempt + 1) fuel (some none)

/-- `retry.WithRetry` over canned outcomes: number of attempts performed
and the final result. -/
def withRetry (get : Nat → Option Response) (config : RetryConfig) :
    Nat × RetryResult :=
  wrLoop get config.maxAttempts 1 config.maxAttempts none

/-! ## Claim C4 -/

/-- A headerless response with the given status. -/
def respOnly (code : Int) : Response := { statusCode := code, headers := [] }

/-- The canned outcome sequence 500, 500, 200. -/
def seq500500200 : Nat → Option Response := fun n =>
  if n = 1 then some (respOnly 500)
  else if n = 2 then some (respOnly 500)
  else some (respOnly 200)

/-- The canned outcome sequence that always answers 404. -/
def seq404 : Nat → Option Response := fun _ => some (respOnly 404)

theorem wrLoop_terminal (get : Nat → Option Response) (maxA : Nat) :
    ∀ (fuel attempt k : Nat) (last : Option (Option Response)) (r : Response),
      1 ≤ attempt → attempt ≤ k → k ≤ maxA → attempt + fuel = maxA + 1 →
      (∀ j, attempt ≤ j → j < k → shouldRetry (get j) = true) →
      get k = some r → shouldRetry (some r) = false →
      wrLoop get maxA attempt fuel last = (k, RetryResult.resp r)
  | 0, attempt, k, _, r, _, hak, hkm, hfuel, _, _, _ => by omega
  | fuel + 1, attempt, k, last, r, h1, hak, hkm, hfuel, hretry, hk, hnr => by
    rcases Nat.lt_or_ge attempt k with hlt | hge
    · have hra : shouldRetry (get attempt) = true := hretry attempt (Nat.le_refl _) hlt
      have hne : attempt ≠ maxA := by omega
      rcases hga : get attempt with _ | r'
      · simp only [wrLoop, hga]
        rw [if_neg hne]
        exact wrLoop_terminal get maxA fuel (attempt + 1) k (some none) r
          (by omega) (by omega) hkm (by omega)
          (fun j hj1 hj2 => hretry j (by omega) hj2) hk hnr
      · have h200 : ¬ (r'.statusCode = 200) := by
          intro h200
          rw [hga] at hra
          simp [shouldRetry, h200] at hra
        simp only [wrLoop, hga]
        rw [if_neg h200]
        rw [show shouldRetry (some r') = true from hga ▸ hra, if_pos rfl, if_neg hne]
        exact wrLoop_terminal get maxA fuel (attempt + 1) k (some (some r')) r
          (by omega) (by omega) hkm (by omega)
          (fun j hj1 hj2 => hretry j (by omega) hj2) hk hnr
    · have heq : attempt = k := by omega
      subst heq
      simp only [wrLoop, hk]
      by_cases h200 : r.statusCode = 200
      · rw [if_pos h200]
      · rw [if_neg h200, hnr]
        simp

/-- C4: `WithRetry` returns any non-retryable outcome (2xx, 3xx, non-429
4xx) right after the attempt that produced it — retries happen only on
network errors, 429 and 5xx, exactly `shouldRetry`'s classification; on
the canned sequence [500, 500, 200] exactly 3 attempts happen and the 200
response is returned, and on [404] exactly 1 attempt happens. -/
theorem withRetry_terminal_and_concrete :
    (∀ (get : Nat → Option Response) (config : RetryConfig) (k : Nat) (r : Response),
      1 ≤ k → k ≤ config.maxAttempts →
      (∀ j, 1 ≤ j → j < k → shouldRetry (get j) = true) →
      get k = some r → shouldRetry (some r) = false →
      withRetry get config = (k, RetryResult.resp r)) ∧
    (∀ r : Response, shouldRetry (some r)
        = (decide (r.statusCode = 429) || decide (r.statusCode ≥ 500))) ∧
    shouldRetry none = true ∧
    withRetry seq500500200 defaultRetryConfig = (3, RetryResult.resp (respOnly 200)) ∧
    withRetry seq404 defaultRetryConfig = (1, RetryResult.resp (respOnly 404)) := by
  refine ⟨?_, ?_, rfl, by decide, by decide⟩
  · intro get config k r h1 hk hretry hgk hnr
    exact wrLoop_terminal get config.maxAttempts config.maxAttempts 1 k none r
      (Nat.le_refl 1) h1 hk (by omega) (fun j hj1 hj2 => hretry j hj1 hj2) hgk hnr
  · intro r
    simp only [shouldRetry]
    by_cases h429 : r.statusCode = 429
    · simp [h429]
    · by_cases h5 : r.statusCode ≥ 500
      · simp [h429, h5]
      · simp [h429, h5]

/-- C4 (witness): the terminal-return rule applied to the concrete [404]
sequence. -/
theorem withRetry_terminal_and_concrete_witness :
    withRetry seq404 defaultRetryConfig = (1, RetryResult.resp (respOnly 404)) := by
  refine withRetry_terminal_and_concrete.1 seq404 defaultRetryConfig 1 (respOnly 404)
    (by decide) (by decide) ?_ rfl (by decide)
  intro j hj1 hj2
  omega

/-! ## Claim C5 -/

/-- A configuration whose initial delay exceeds its maximum delay. -/
def c5BadConfig : RetryConfig :=
  { maxAttempts := 3, initialDelay := 10 * second, maxDelay := 5 * second }

/-- C5 (counterexample): at attempt 1 the code returns `initialDelay`
without capping, so with initialDelay 10s and maxDelay 5s the delay is
10s, not `min(maxDelay, initialDelay * 2^0) = 5s` as the claim requires. -/
theorem getRetryDelay_attempt_one_uncapped :
    getRetryDelay none 1 c5BadConfig
      ≠ min c5BadConfig.maxDelay (c5BadConfig.initialDelay * 2 ^ (1 - 1)) := by
  decide

theorem getRetryDelay_backoff_arm (config : RetryConfig) (o : Option Response)
    (n : Nat) (h : o = none ∨ ∃ r, o = some r ∧ r.statusCode ≠ 429) :
    getRetryDelay o n config
      = backoffLoop config.maxDelay config.initialDelay (n - 1) := by
  rcases h with rfl | ⟨r, rfl, hne⟩
  · rfl
  · simp [getRetryDelay, hne]

theorem backoffLoop_min (maxD : Nat) :
    ∀ (n d : Nat), d ≤ maxD → backoffLoop maxD d n = min maxD (d * 2 ^ n)
  | 0, d, hd => by
    simp [backoffLoop]
    omega
  | n + 1, d, hd => by
    rw [backoffLoop]
    have hpow : d * 2 ^ (n + 1) = d * 2 * 2 ^ n := by ring
    by_cases hcap : d * 2 > maxD
    · rw [if_pos hcap]
      have h1 : 1 ≤ 2 ^ n := Nat.one_le_two_pow
      have : maxD ≤ d * 2 ^ (n + 1) := by
        rw [hpow]
        calc maxD ≤ d * 2 := by omega
        _ ≤ d * 2 * 2 ^ n := Nat.le_mul_of_pos_right _ (by omega)
      omega
    · rw [if_neg hcap]
      rw [backoffLoop_min maxD n (d * 2) (by omega), hpow]

theorem getRetryDelay_hint (config : RetryConfig) (r : Response) (attempt : Nat)
    (secs : Int) (h429 : r.statusCode = 429)
    (hne : headerGet r.headers "Retry-After" ≠ "")
    (hparse : goAtoi (headerGet r.headers "Retry-After") = some secs)
    (hpos : 0 < secs) :
    getRetryDelay (some r) attempt config
      = if secs.toNat * second > config.maxDelay then config.maxDelay
        else secs.toNat * second := by
  simp only [getRetryDelay, hparse]
  rw [if_pos h429, if_pos hne, if_pos hpos]

/-- C5 (amended): for attempts n ≥ 2 the computed delay is
`min(maxDelay, initialDelay * 2^(n-1))`; at attempt 1 it is `initialDelay`
itself, uncapped (the cap is only applied after a doubling).  A 429
response with a positive integer Retry-After hint yields
`min(maxDelay, hint)` at every attempt.  With the default 1s/8s
configuration the delays for attempts 1..5 are 1s, 2s, 4s, 8s, 8s, and a
429 hint of 100s under maxDelay 5s yields exactly 5s. -/
theorem getRetryDelay_formula :
    (∀ (config : RetryConfig) (o : Option Response),
      (o = none ∨ ∃ r, o = some r ∧ r.statusCode ≠ 429) →
      getRetryDelay o 1 config = config.initialDelay) ∧
    (∀ (config : RetryConfig) (o : Option Response) (n : Nat), 2 ≤ n →
      (o = none ∨ ∃ r, o = some r ∧ r.statusCode ≠ 429) →
      getRetryDelay o n config
        = min config.maxDelay (config.initialDelay * 2 ^ (n - 1))) ∧
    (∀ (config : RetryConfig) (r : Response) (attempt : Nat) (secs : Int),
      r.statusCode = 429 →
      goAtoi (headerGet r.headers "Retry-After") = some secs → 0 < secs →
      getRetryDelay (some r) attempt config
        = min config.maxDelay (secs.toNat * second)) ∧
    (getRetryDelay none 1 defaultRetryConfig = 1 * second ∧
     getRetryDelay none 2 defaultRetryConfig = 2 * second ∧
     getRetryDelay none 3 defaultRetryConfig = 4 * second ∧
     getRetryDelay none 4 defaultRetryConfig = 8 * second ∧
     getRetryDelay none 5 defaultRetryConfig = 8 * second) ∧
    getRetryDelay (some { statusCode := 429, headers := [("Retry-After", "100")] }) 1
        { maxAttempts := 3, initialDelay := 1 * second, maxDelay := 5 * second }
      = 5 * second := by
  refine ⟨?_, ?_, ?_, by decide, by decide⟩
  · intro config o h
    rw [getRetryDelay_backoff_arm config o 1 h]
    rfl
  · intro config o n hn h
    rw [getRetryDelay_backoff_arm config o n h]
    rcases Nat.exists_eq_add_of_le hn with ⟨m, rfl⟩
    have hidx : 2 + m - 1 = m + 1 := by omega
    rw [hidx, backoffLoop]
    by_cases hcap : config.initialDelay * 2 > config.maxDelay
    · rw [if_pos hcap]
      have h1 : 1 ≤ 2 ^ m := Nat.one_le_two_pow
      have hpow : config.initialDelay * 2 ^ (m + 1) = config.initialDelay * 2 * 2 ^ m := by
        ring
      have : config.maxDelay ≤ config.initialDelay * 2 ^ (m + 1) := by
        rw [hpow]
        calc config.maxDelay ≤ config.initialDelay * 2 := by omega
        _ ≤ config.initialDelay * 2 * 2 ^ m := Nat.le_mul_of_pos_right _ (by omega)
      omega
    · rw [if_neg hcap]
      rw [backoffLoop_min config.maxDelay m (config.initialDelay * 2) (by omega)]
      have hpow : config.initialDelay * 2 ^ (m + 1) = config.initialDelay * 2 * 2 ^ m := by
        ring
      rw [hpow]
  · intro config r attempt secs h429 hparse hpos
    have hne : headerGet r.headers "Retry-After" ≠ "" := by
      intro h0
      rw [h0] at hparse
      have hnone : goAtoi "" = (none : Option Int) := rfl
      rw [hnone] at hparse
      cases hparse
    rw [getRetryDelay_hint config r attempt secs h429 hne hparse hpos]
    split
    · rename_i hcap
      omega
    · rename_i hcap
      omega

/-- C5 (witness): the amended delay formula applied at attempt 3 of the
default configuration and at the concrete 429 hint. -/
theorem getRetryDelay_formula_witness :
    getRetryDelay none 3 defaultRetryConfig
        = min defaultRetryConfig.maxDelay (defaultRetryConfig.initialDelay * 2 ^ 2) ∧
    getRetryDelay (some { statusCode := 429, headers := [("Retry-After", "100")] }) 2
        c5BadConfig = min c5BadConfig.maxDelay (100 * second) := by
  constructor
  · exact getRetryDelay_formula.2.1 defaultRetryConfig none 3 (by decide) (Or.inl rfl)
  · exact getRetryDelay_formula.2.2.1 c5BadConfig
      { statusCode := 429, headers := [("Retry-After", "100")] } 2 100 rfl (by decide)
      (by decide)

/-! ## Cache transport (`src/cache/cache.go`) -/

/-- `cache.CacheConfig`. -/
structure CacheConfig : Type where
  directory : String
  defaultTTLHours : Int
  searchTTLHours : Int
deriving DecidableEq, Repr

/-- The scan of Go's `filepath.Ext`: walk the path from its end towards
the last separator; the extension is the suffix from the final dot,
empty when there is none. -/
def extLoop : List Char → List Char → String
  | [], _ => ""
  | c :: rest, acc =>
    if c = '/' then ""
    else if c = '.' then String.mk (c :: acc)
    else extLoop rest (c :: acc)

/-- Go `filepath.Ext` (with `/` as the separator). -/
def goFilepathExt (path : String) : String := extLoop path.data.reverse []

/-- Go `filepath.Base` (with `/` as the separator): `.` for the empty
path, trailing separators stripped, then the last element; `/` if
everything was separators. -/
def goFilepathBase (path : String) : String :=
  if path = "" then "."
  else
    let rev := path.data.reverse.dropWhile (fun c => c = '/')
    if rev = [] then "/"
    else String.mk ((rev.takeWhile (fun c => c ≠ '/')).reverse)

/-- `FileCachingTransport.makeCacheKey`.  The md5 hex digest of the full
request URL (`hex.EncodeToString(md5sum[:])`, a 32-character lowercase hex
string) is passed in as `md5hex`; the hash function itself is not
modelled.  The suffix depends on the URL path. -/
def makeCacheKey (md5hex : String) (urlPath : String) : String :=
  if urlPath = "/search" then md5hex ++ "-search"
  else if goFilepathExt urlPath = ".zip" then md5hex ++ "-zip"
  else if goFilepathBase urlPath = "filelist.json" then md5hex ++ "-filelist"
  else md5hex

/-- `FileCachingTransport.cachePath`: `filepath.Join(directory, cacheKey)`
for a configured directory without trailing separator. -/
def cachePath (config : CacheConfig) (cacheKey : String) : String :=
  config.directory ++ "/" ++ cacheKey

/-- The TTL selection inside `FileCachingTransport.cacheExpired`
(`ttlHours := DefaultTTLHours; base := filepath.Base(path); if base ==
"-search" || filepath.Ext(base) == "-search" { ttlHours = SearchTTLHours }`). -/
def ttlHoursForPath (config : CacheConfig) (path : String) : Int :=
  let base := goFilepathBase path
  if base = "-search" ∨ goFilepathExt base = "-search" then config.searchTTLHours
  else config.defaultTTLHours

/-! ## Claim C9 -/

/-- A concrete md5 hex digest, as `makeCacheKey` computes for a URL. -/
def c9Md5 : String := "9e107d9d372bb6826bd81d3542a419d6"

/-- A concrete cache configuration with distinct TTL classes. -/
def c9Config : CacheConfig :=
  { directory := "state", defaultTTLHours := 24, searchTTLHours := 1 }

/-- A cache configuration over the state directory, with the two TTLs
left free. -/
def c9ConfigAt (dTTL sTTL : Int) : CacheConfig :=
  { directory := "state", defaultTTLHours := dTTL, searchTTLHours := sTTL }

/-- C9: the key for a `/search` URL does carry the distinct `-search`
suffix, yet `cacheExpired` still judges it by the **default** TTL: the
key contains no dot, so `filepath.Ext(base)` is `""` — never `"-search"`
— and `base` itself always starts with the 32-character digest, so the
`SearchTTLHours` branch is unreachable.  This holds for every pair of
configured TTLs. -/
theorem searchTTL_never_applied :
    makeCacheKey c9Md5 "/search" = c9Md5 ++ "-search" ∧
    goFilepathExt (goFilepathBase
        (cachePath c9Config (makeCacheKey c9Md5 "/search"))) = "" ∧
    ttlHoursForPath c9Config (cachePath c9Config (makeCacheKey c9Md5 "/search"))
        = c9Config.defaultTTLHours ∧
    c9Config.defaultTTLHours ≠ c9Config.searchTTLHours ∧
    (∀ dTTL sTTL : Int,
      ttlHoursForPath (c9ConfigAt dTTL sTTL)
        (cachePath (c9ConfigAt dTTL sTTL) (makeCacheKey c9Md5 "/search")) = dTTL) := by
  refine ⟨by decide, by decide, by decide, by decide, ?_⟩
  intro dTTL sTTL
  have hpath : cachePath (c9ConfigAt dTTL sTTL) (makeCacheKey c9Md5 "/search")
      = cachePath c9Config (makeCacheKey c9Md5 "/search") := rfl
  simp only [ttlHoursForPath, hpath]
  rw [if_neg (by decide)]
  rfl

/-! ## Dedup in `processURL` (`src/cli/commands.go`, lines 279-299)

The lock discipline of `processURL` as a transition system over
interleavings.  A worker that has been handed a URL is `idle url`; the
mutex-protected check-and-mark (lines 280-286) is one atomic transition:
it either aborts (URL already in `processedURLs`) or marks the URL and
moves the worker to `claimed url`; the download/parse (lines 290-302)
is a separate later transition that appends to the fetch log.  Workers
are a bag, so any number of workers may hold the same URL (duplicate
discoveries and dispatches), and actions interleave arbitrarily. -/

/-- The phase of one worker inside `processURL`. -/
inductive WStatus : Type where
  | idle (url : String)
  | claimed (url : String)
  | finished
deriving DecidableEq, Repr

/-- The shared state: the `processedURLs` set, the worker bag, and the
log of URLs that were actually downloaded and parsed. -/
structure DState : Type where
  processed : List String
  workers : List WStatus
  fetched : List String
deriving DecidableEq, Repr

/-- Scheduler actions: hand a URL to a worker, run one worker's
mutex-protected check-and-mark, or run one claimed worker's fetch. -/
inductive DAction : Type where
  | dispatch (url : String)
  | checkAndMark (url : String)
  | fetch (url : String)
deriving DecidableEq, Repr

/-- One interleaving step; actions whose precondition fails leave the
state unchanged. -/
def dedupStep (s : DState) : DAction → DState
  | DAction.dispatch url => { s with workers := WStatus.idle url :: s.workers }
  | DAction.checkAndMark url =>
    if WStatus.idle url ∈ s.workers then
      if url ∈ s.processed then
        { s with workers := WStatus.finished :: s.workers.erase (WStatus.idle url) }
      else
        { processed := url :: s.processed
          workers := WStatus.claimed url :: s.workers.erase (WStatus.idle url)
          fetched := s.fetched }
    else s
  | DAction.fetch url =>
    if WStatus.claimed url ∈ s.workers then
      { s with
        workers := WStatus.finished :: s.workers.erase (WStatus.claimed url)
        fetched := url :: s.fetched }
    else s

/-- The initial state: nothing processed, no workers, nothing fetched. -/
def dedupInit : DState := { processed := [], workers := [], fetched := [] }

/-- Run a schedule of actions from the initial state. -/
def dedupRun (actions : List DAction) : DState := actions.foldl dedupStep dedupInit

/-- The dedup invariant: per URL, fetches-so-far plus claims-in-hand never
exceed one, and are zero while the URL is unmarked. -/
def DedupInv (s : DState) : Prop :=
  ∀ url : String,
    s.fetched.count url + s.workers.count (WStatus.claimed url) ≤ 1 ∧
    (url ∉ s.processed →
      s.fetched.count url + s.workers.count (WStatus.claimed url) = 0)

theorem dedupStep_inv (s : DState) (a : DAction) (h : DedupInv s) :
    DedupInv (dedupStep s a) := by
  cases a with
  | dispatch u =>
    intro url
    rcases h url with ⟨h1, h2⟩
    have hcnt : (WStatus.idle u :: s.workers).count (WStatus.claimed url)
        = s.workers.count (WStatus.claimed url) := by
      rw [List.count_cons_of_ne]
      simp
    simp only [dedupStep]
    rw [hcnt]
    exact ⟨h1, h2⟩
  | checkAndMark u =>
    intro url
    rcases h url with ⟨h1, h2⟩
    simp only [dedupStep]
    by_cases hidle : WStatus.idle u ∈ s.workers
    · rw [if_pos hidle]
      by_cases hproc : u ∈ s.processed
      · rw [if_pos hproc]
        have hcnt : (WStatus.finished :: (s.workers.erase (WStatus.idle u))).count
            (WStatus.claimed url) = s.workers.count (WStatus.claimed url) := by
          rw [List.count_cons_of_ne (by simp),
            List.count_erase_of_ne (by simp)]
        simp only
        rw [hcnt]
        exact ⟨h1, h2⟩
      · rw [if_neg hproc]
        by_cases heq : url = u
        · subst heq
          have hzero := h2 hproc
          have hcnt : (WStatus.claimed url :: (s.workers.erase (WStatus.idle url))).count
              (WStatus.claimed url) = s.workers.count (WStatus.claimed url) + 1 := by
            rw [List.count_cons_self, List.count_erase_of_ne (by simp)]
          simp only
          rw [hcnt]
          constructor
          · omega
          · intro hnot
            exact absurd (List.mem_cons_self url s.processed) hnot
        · have hcnt : (WStatus.claimed u :: (s.workers.erase (WStatus.idle u))).count
              (WStatus.claimed url) = s.workers.count (WStatus.claimed url) := by
            rw [List.count_cons_of_ne (by simp [heq]),
              List.count_erase_of_ne (by simp)]
          simp only
          rw [hcnt]
          refine ⟨h1, ?_⟩
          intro hnot
          refine h2 ?_
          intro hmem
          exact hnot (List.mem_cons_of_mem u hmem)
    · rw [if_neg hidle]
      exact ⟨h1, h2⟩
  | fetch u =>
    intro url
    rcases h url with ⟨h1, h2⟩
    simp only [dedupStep]
    by_cases hclaim : WStatus.claimed u ∈ s.workers
    · rw [if_pos hclaim]
      by_cases heq : url = u
      · subst heq
        have hpos : 0 < s.workers.count (WStatus.claimed url) :=
          List.count_pos_iff.mpr hclaim
        have hcnt : (WStatus.finished :: (s.workers.erase (WStatus.claimed url))).count
            (WStatus.claimed url) = s.workers.count (WStatus.claimed url) - 1 := by
          rw [List.count_cons_of_ne (by simp), List.count_erase_self]
        have hfet : (url :: s.fetched).count url = s.fetched.count url + 1 := by
          rw [List.count_cons_self]
        simp only
        rw [hcnt, hfet]
        constructor
        · omega
        · intro hnot
          have := h2 hnot
          omega
      · have hcnt : (WStatus.finished :: (s.workers.erase (WStatus.claimed u))).count
            (WStatus.claimed url) = s.workers.count (WStatus.claimed url) := by
          rw [List.count_cons_of_ne (by simp),
            List.count_erase_of_ne (by simp [heq])]
        have hfet : (u :: s.fetched).count url = s.fetched.count url := by
          rw [List.count_cons_of_ne heq]
        simp only
        rw [hcnt, hfet]
        exact ⟨h1, h2⟩
    · rw [if_neg hclaim]
      exact ⟨h1, h2⟩

theorem dedupRun_inv (actions : List DAction) : DedupInv (dedupRun actions) := by
  have hstep : ∀ (acts : List DAction) (s : DState), DedupInv s →
      DedupInv (acts.foldl dedupStep s) := by
    intro acts
    induction acts with
    | nil => intro s hs; exact hs
    | cons a rest ih =>
      intro s hs
      exact ih (dedupStep s a) (dedupStep_inv s a hs)
  refine hstep actions dedupInit ?_
  intro url
  simp [dedupInit]

/-! ## Claim C6 -/

/-- C6: under every interleaving of dispatches (including duplicates),
mutex-protected check-and-marks, and fetches, each distinct URL is
downloaded and parsed at most once, and every fetched URL had been marked
in the shared processed set before its fetch began. -/
theorem processURL_fetches_at_most_once (actions : List DAction) (url : String) :
    (dedupRun actions).fetched.count url ≤ 1 ∧
    (url ∈ (dedupRun actions).fetched → url ∈ (dedupRun actions).processed) := by
  rcases dedupRun_inv actions url with ⟨h1, h2⟩
  constructor
  · omega
  · intro hmem
    by_contra hnot
    have hzero := h2 hnot
    have hpos : 0 < (dedupRun actions).fetched.count url :=
      List.count_pos_iff.mpr hmem
    omega

/-- C6 (witness): the dedup theorem applied to a concrete schedule in
which one URL is dispatched twice and fetched once. -/
theorem processURL_fetches_at_most_once_witness :
    (dedupRun [DAction.dispatch "a", DAction.dispatch "a", DAction.checkAndMark "a",
        DAction.checkAndMark "a", DAction.fetch "a"]).fetched.count "a" ≤ 1 ∧
    "a" ∈ (dedupRun [DAction.dispatch "a", DAction.dispatch "a", DAction.checkAndMark "a",
        DAction.checkAndMark "a", DAction.fetch "a"]).processed := by
  constructor
  · exact (processURL_fetches_at_most_once [DAction.dispatch "a", DAction.dispatch "a",
      DAction.checkAndMark "a", DAction.checkAndMark "a", DAction.fetch "a"] "a").1
  · exact (processURL_fetches_at_most_once [DAction.dispatch "a", DAction.dispatch "a",
      DAction.checkAndMark "a", DAction.checkAndMark "a", DAction.fetch "a"] "a").2
      (by decide)

/-! ## Completion monitor of `scrapeWowInterface`
(`src/cli/commands.go`, lines 196-233)

The worker loop `for url := range urlChan { inFlight.Add(1); process;
inFlight.Add(-1) }` and the monitor goroutine `if len(urlChan) == 0 &&
inFlight.Load() == 0 { close(urlChan) }` as a transition system.  A
worker is `waiting` at the channel receive, `took url` after the receive
but **before** `inFlight.Add(1)`, `processing url` after the increment,
and `exited` once the closed and drained channel ends its range loop.
Each line of the Go code is one transition; the scheduler interleaves
them arbitrarily, which is exactly what the goroutine scheduler may do. -/

/-- The phase of one worker in the `scrapeWowInterface` loop. -/
inductive MW : Type where
  | waiting
  | took (url : String)
  | processing (url : String)
  | exited
deriving DecidableEq, Repr

/-- Is a worker between `inFlight.Add(1)` and `inFlight.Add(-1)`? -/
def isProcessing : MW → Bool
  | MW.processing _ => true
  | _ => false

/-- The shared state: the buffered channel contents, the `inFlight`
counter, whether `urlChan` has been closed, and the worker bag. -/
structure MState : Type where
  queue : List String
  inFlight : Int
  closed : Bool
  workers : List MW
deriving DecidableEq, Repr

/-- Scheduler actions, one per line of the Go loop: a channel receive, the
in-flight increment, the end of one URL's processing (decrement), a
discovered-URL enqueue from inside `processURL`, one monitor tick, and a
worker exiting its drained range loop. -/
inductive MAction : Type where
  | receive
  | incr (url : String)
  | finish (url : String)
  | enqueue (url : String)
  | monitorClose
  | exitWorker
deriving DecidableEq, Repr

/-- One interleaving step; actions whose precondition fails leave the
state unchanged.  A closed channel still delivers its buffered URLs,
which is Go semantics for `range` over a buffered channel. -/
def monitorStep (s : MState) : MAction → MState
  | MAction.receive =>
    match s.queue with
    | [] => s
    | url :: rest =>
      if MW.waiting ∈ s.workers then
        { s with queue := rest, workers := MW.took url :: s.workers.erase MW.waiting }
      else s
  | MAction.incr url =>
    if MW.took url ∈ s.workers then
      { s with
        inFlight := s.inFlight + 1
        workers := MW.processing url :: s.workers.erase (MW.took url) }
    else s
  | MAction.finish url =>
    if MW.processing url ∈ s.workers then
      { s with
        inFlight := s.inFlight - 1
        workers := MW.waiting :: s.workers.erase (MW.processing url) }
    else s
  | MAction.enqueue url =>
    if s.closed = false ∧ s.workers.any isProcessing then
      { s with queue := s.queue ++ [url] }
    else s
  | MAction.monitorClose =>
    if s.queue = [] ∧ s.inFlight = 0 ∧ s.closed = false then
      { s with closed := true }
    else s
  | MAction.exitWorker =>
    if s.closed = true ∧ s.queue = [] ∧ MW.waiting ∈ s.workers then
      { s with workers := MW.exited :: s.workers.erase MW.waiting }
    else s

/-- The start of a one-worker run: the seeded API file list URL is in the
channel, nothing is in flight, the channel is open. -/
def monitorInit : MState :=
  { queue := ["https://api.mmoui.com/v4/game/WOW/filelist.json"]
    inFlight := 0
    closed := false
    workers := [MW.waiting] }

/-- Run a schedule of actions from the initial state. -/
def monitorRun (actions : List MAction) : MState := actions.foldl monitorStep monitorInit

/-! ## Claim C7 -/

/-- C7: two scheduler steps — the worker receives the last queued URL,
then the monitor tick runs before the worker reaches `inFlight.Add(1)` —
put the system in a state where the frontier channel is closed while the
worker still holds the URL it took and has not finished processing it.
The monitor's frontier-empty and in-flight-zero test both pass in the
claim window, so the frontier is closed exactly where the claim says it
never is (and the worker's later discovered-URL send would panic on the
closed channel). -/
theorem monitor_closes_during_claim_window :
    (monitorRun [MAction.receive, MAction.monitorClose]).closed = true ∧
    MW.took "https://api.mmoui.com/v4/game/WOW/filelist.json"
        ∈ (monitorRun [MAction.receive, MAction.monitorClose]).workers ∧
    (monitorRun [MAction.receive, MAction.monitorClose]).inFlight = 0 ∧
    (monitorRun [MAction.receive, MAction.monitorClose]).queue = [] := by
  decide

end StrongboxCatalogue
